import Mathlib

/-!
Verification of the NAIpromptexplorer repository (a Tk-based PNG prompt
browser).  The development shallowly embeds the pure logic of
`image_index.py`, `thumbnail_view.py` and `app.py`:

* Python strings are modelled as `List Char` (a Python `str` is a sequence
  of code points); `str.strip` / `str.lower` / `str.split(",")` / the
  `in` substring test are modelled by executable functions below.
* Filesystem paths are modelled as natural numbers equipped with their
  order (only identity and a total order on paths matter to the code).
* External image decoding (PIL) is modelled by oracles passed as
  function arguments; a decode failure is the oracle returning `none`.
-/

/-! ## Python string primitives over `List Char` -/

/-- The whitespace characters stripped by Python's `str.strip()`
(ASCII range; the code only ever strips user queries and metadata). -/
def isPyWs (c : Char) : Bool :=
  c == ' ' || c == '\t' || c == '\n' || c == '\r' ||
    c == Char.ofNat 11 || c == Char.ofNat 12

/-- Python `str.lower()` (ASCII model, applied uniformly on both the
code side and the spec side). -/
def pyLower (s : List Char) : List Char := s.map Char.toLower

/-- Remove leading whitespace (`str.lstrip()`). -/
def stripL (s : List Char) : List Char := s.dropWhile isPyWs

/-- Remove trailing whitespace (`str.rstrip()`), structurally. -/
def stripR : List Char → List Char
  | [] => []
  | c :: rest =>
    match stripR rest with
    | [] => if isPyWs c then [] else [c]
    | t :: ts => c :: t :: ts

/-- Python `str.strip()`: remove whitespace at both ends. -/
def pyStrip (s : List Char) : List Char := stripL (stripR s)

/-- Python `s.split(",")`: split on every comma, keeping empty pieces;
`"".split(",") = [""]`. -/
def splitComma : List Char → List (List Char)
  | [] => [[]]
  | c :: rest =>
    if c = ',' then [] :: splitComma rest
    else
      match splitComma rest with
      | [] => [[c]]
      | t :: ts => (c :: t) :: ts

/-- Append `w` to the last piece of a split (helper for reasoning about
`splitComma` on a string with a trailing suffix). -/
def appendLast (w : List Char) : List (List Char) → List (List Char)
  | [] => [w]
  | [t] => [t ++ w]
  | t :: ts => t :: appendLast w ts

/-- Does `s` start with the sequence `n`? (helper for the substring test). -/
def startsWithSeq : List Char → List Char → Bool
  | _, [] => true
  | [], _ :: _ => false
  | a :: as, b :: bs => a == b && startsWithSeq as bs

/-- Python's substring test `needle in haystack` (empty needle matches). -/
def containsSeq (hay needle : List Char) : Bool :=
  match hay with
  | [] => needle.isEmpty
  | _ :: rest => startsWithSeq hay needle || containsSeq rest needle

/-- Join text pieces with a blank line: Python `"\n\n".join(texts)`. -/
def joinBlank (ts : List (List Char)) : List Char :=
  List.intercalate ['\n', '\n'] ts

/-- Dictionary lookup in an insertion-ordered association list
(Python `dict` lookup; dict keys are unique, so first match suffices). -/
def lookupAssoc {α β : Type} [DecidableEq α] (k : α) : List (α × β) → Option β
  | [] => none
  | (k', v) :: rest => if k' = k then some v else lookupAssoc k rest

/-! ## `image_index.py` -/

/-- Model of `ImageEntry` (dataclass): one indexed file.  `path` abstracts the
filesystem path (only identity and ordering matter), `prompt` is the
extracted text. -/
structure ImageEntry where
  path : Nat
  prompt : List Char
  deriving DecidableEq, Repr

/-- The `prompt_lower` property: `self.prompt.lower()`. -/
def ImageEntry.prompt_lower (e : ImageEntry) : List Char := pyLower e.prompt

/-- The `prioritized_keys` list of `extract_prompt_text`. -/
def prioritizedKeys : List (List Char) :=
  ["prompt".toList, "parameters".toList, "description".toList, "comment".toList]

/-- The closure `append_value` of `extract_prompt_text`: state is the
`seen` set (as a list) together with the destination list; the value is
stripped, and appended only if non-empty and unseen.  (The bytes branch
of the source decodes to a text value first; metadata values are
modelled as already-decoded text.) -/
def appendValue (seen : List (List Char)) (dest : List (List Char))
    (value : List Char) : List (List Char) × List (List Char) :=
  let tv := pyStrip value
  if tv ≠ [] ∧ tv ∉ seen then (tv :: seen, dest ++ [tv]) else (seen, dest)

/-- Embedding of `extract_prompt_text(image_path)`.  The PIL interaction
(`Image.open`, `img.info` updated with `img.text`) is modelled by the
argument `info?`: `none` when opening/decoding raises (the `except`
branch returns `""`), otherwise the merged metadata dictionary as an
insertion-ordered association list with the unique keys of the Python
dict.  The body walks the prioritized keys into `texts`, then the
remaining keys into `remaining` (sharing the `seen` set), and joins
`texts ++ remaining` with blank lines. -/
def extract_prompt_text (info? : Option (List (List Char × List Char))) :
    List Char :=
  match info? with
  | none => []
  | some info =>
    let step1 :=
      prioritizedKeys.foldl
        (fun (st : List (List Char) × List (List Char)) key =>
          match lookupAssoc key info with
          | some v => appendValue st.1 st.2 v
          | none => st)
        ([], [])
    let step2 :=
      info.foldl
        (fun (st : List (List Char) × List (List Char)) kv =>
          if kv.1 ∈ prioritizedKeys then st else appendValue st.1 st.2 kv.2)
        (step1.1, [])
    joinBlank (step1.2 ++ step2.2)

/-- The `seen` set after scanning a list of (already trimmed, filtered)
values, threading exactly as `append_value` does. -/
def dedupSeenAfter (seen : List (List Char)) : List (List Char) → List (List Char)
  | [] => seen
  | v :: rest =>
    if v ∈ seen then dedupSeenAfter seen rest
    else dedupSeenAfter (v :: seen) rest

/-- Deduplication keeping first occurrences, relative to an initial
`seen` set. -/
def dedupFirstAux (seen : List (List Char)) : List (List Char) → List (List Char)
  | [] => []
  | v :: rest =>
    if v ∈ seen then dedupFirstAux seen rest
    else v :: dedupFirstAux (v :: seen) rest

/-- Modelled from the spec: the candidate metadata values "prioritizing
known keys … before any other keys found", in their stable orders. -/
def specCandidates (info : List (List Char × List Char)) : List (List Char) :=
  prioritizedKeys.filterMap (fun k => lookupAssoc k info) ++
    (info.filter (fun kv => kv.1 ∉ prioritizedKeys)).map (·.2)

/-- Modelled from the spec: "a single string, the concatenation … of
distinct non-empty metadata text values …, each value trimmed and
deduplicated by exact text match, joined with a blank-line separator";
"any decode failure … yields an empty string". -/
def specExtract (info? : Option (List (List Char × List Char))) : List Char :=
  match info? with
  | none => []
  | some info =>
    joinBlank
      (dedupFirstAux []
        (((specCandidates info).map pyStrip).filter (fun v => v ≠ [])))

/-- A fold of `append_value` over a list of raw values (used to relate
the two phases of `extract_prompt_text` to `dedupFirstAux`). -/
def processVals (st : List (List Char) × List (List Char))
    (vs : List (List Char)) : List (List Char) × List (List Char) :=
  vs.foldl (fun st v => appendValue st.1 st.2 v) st

/-- Embedding of `ImageIndexer.search(search_text, mode, source_entries)`:
strip the query; empty query returns the entries; `"exact"` mode is a
case-insensitive substring test; any other mode is comma-separated
AND of tokens. -/
def search (searchText : List Char) (mode : List Char)
    (sourceEntries : List ImageEntry) : List ImageEntry :=
  let stripped := pyStrip searchText
  if stripped = [] then sourceEntries
  else if mode = "exact".toList then
    let needle := pyLower stripped
    sourceEntries.filter (fun e => containsSeq e.prompt_lower needle)
  else
    -- Default to AND mode.
    let tokens :=
      ((splitComma stripped).filter (fun t => pyStrip t ≠ [])).map
        (fun t => pyLower (pyStrip t))
    if tokens = [] then sourceEntries
    else
      sourceEntries.filter (fun e =>
        tokens.all (fun t => containsSeq e.prompt_lower t))

/-- Modelled from the spec (tokens-AND mode): "split query on commas,
trim and lowercase each token, drop empty tokens". -/
def specAndTokens (q : List Char) : List (List Char) :=
  ((splitComma q).map (fun t => pyLower (pyStrip t))).filter (fun t => t ≠ [])

/-- Modelled from the spec (tokens-AND mode): "an entry matches iff its
lowercased prompt contains every non-empty token; empty token list ⇒
return all entries unchanged". -/
def specSearchAnd (q : List Char) (entries : List ImageEntry) :
    List ImageEntry :=
  let toks := specAndTokens q
  if toks = [] then entries
  else entries.filter (fun e => toks.all (fun t => containsSeq e.prompt_lower t))

/-- Sorted insertion on paths (for `sorted(folder.glob("*.png"))`). -/
def insertSorted (x : Nat) : List Nat → List Nat
  | [] => [x]
  | y :: ys => if x ≤ y then x :: y :: ys else y :: insertSorted x ys

/-- Python `sorted(...)` on the folder's file listing. -/
def sortPaths (l : List Nat) : List Nat := l.foldr insertSorted []

/-- The `prompts` dict built by the `as_completed` loop: each completed
future stores `prompts[image_path] = prompt_text`, in completion order
(later assignments overwrite). -/
def buildPrompts (ex : Nat → List Char) (order : List Nat) :
    Nat → Option (List Char) :=
  order.foldl (fun m p => fun q => if q = p then some (ex p) else m q)
    (fun _ => none)

/-- Embedding of `ImageIndexer.scan_folder(folder)`.  `files` is the folder's file
listing, `ex` the extractor (`extract_prompt_text` at each path), and
`order` the completion order of the concurrent futures (an arbitrary
interleaving).  The final list is built from the sorted listing,
looking each path up in the `prompts` dict (`prompts.get(path, "")`). -/
def scan_folder (files : List Nat) (ex : Nat → List Char)
    (order : List Nat) : List ImageEntry :=
  let pngFiles := sortPaths files
  if pngFiles.length = 0 then []
  else
    let prompts := buildPrompts ex order
    pngFiles.map (fun p => { path := p, prompt := (prompts p).getD [] })

/-! ## `thumbnail_view.py` — `ThumbnailCache` -/

/-- A renderable image (`ImageTk.PhotoImage`): either a thumbnail
decoded from a source image of dimensions `srcW × srcH` fitted into a
`size × size` box, or a solid-colour image of explicit dimensions
(`Image.new("RGBA", (w, h), color)`). -/
inductive TkImage where
  | thumb (path : Nat) (srcW srcH : Nat) (size : Nat)
  | solid (w h : Nat) (color : Nat × Nat × Nat × Nat)
  deriving DecidableEq, Repr

/-- The body of `_create_thumbnail` inside the `try:` — `Image.open`
followed by `thumbnail`/`convert`/`PhotoImage`.  The decode oracle
`dec` gives the source image's dimensions, or `none` when opening or
decoding raises. -/
def createThumbnailBody (dec : Nat → Option (Nat × Nat)) (path size : Nat) :
    Except Unit TkImage :=
  match dec path with
  | none => .error ()
  | some (w, h) => .ok (.thumb path w h size)

/-- Embedding of `ThumbnailCache._create_thumbnail(path, size)`: the `except`
branch returns the solid placeholder
`Image.new("RGBA", (size, size), (60, 60, 60, 255))`. -/
def createThumbnail (dec : Nat → Option (Nat × Nat)) (path size : Nat) :
    TkImage :=
  match createThumbnailBody dec path size with
  | .ok img => img
  | .error _ => .solid size size (60, 60, 60, 255)

/-- The `OrderedDict` of the cache: key `(path, size)` to image, kept
front-to-back in least- to most-recently-used order. -/
abbrev Cache := List ((Nat × Nat) × TkImage)

/-- The cache's key sequence, oldest first. -/
def keysOf (c : Cache) : List (Nat × Nat) := c.map (·.1)

/-- Remove the (first) entry with the given key. -/
def eraseKey (key : Nat × Nat) : Cache → Cache
  | [] => []
  | kv :: rest => if kv.1 = key then rest else kv :: eraseKey key rest

/-- Python `OrderedDict.move_to_end(key)`: move the entry with `key` to the
most-recently-used end (no-op if absent). -/
def moveToEnd (key : Nat × Nat) (c : Cache) : Cache :=
  match lookupAssoc key c with
  | none => c
  | some v => eraseKey key c ++ [(key, v)]

/-- The result of `ThumbnailCache.get`: the returned image, the updated
cache, and whether `_create_thumbnail` was invoked (the decode step). -/
structure GetResult where
  image : TkImage
  cache : Cache
  decoded : Bool
  deriving DecidableEq, Repr

/-- Embedding of `ThumbnailCache.get(path, size)` with capacity `maxItems`
(`self.max_items`): on a hit, `move_to_end` and return; on a miss,
create the thumbnail, insert at the most-recently-used end, and if the
count exceeds capacity, `popitem(last=False)` evicts the front
(least-recently-used) entry. -/
def cacheGet (dec : Nat → Option (Nat × Nat)) (maxItems : Nat) (c : Cache)
    (path size : Nat) : GetResult :=
  let key := (path, size)
  match lookupAssoc key c with
  | some img => { image := img, cache := moveToEnd key c, decoded := false }
  | none =>
    let img := createThumbnail dec path size
    let inserted := c ++ [(key, img)]
    let final := if maxItems < inserted.length then inserted.tail else inserted
    { image := img, cache := final, decoded := true }

/-- Embedding of `ThumbnailCache.clear()`. -/
def cacheClear (_c : Cache) : Cache := []

/-- Run a sequence of `get` calls, keeping the evolving cache. -/
def runGets (dec : Nat → Option (Nat × Nat)) (maxItems : Nat) (c : Cache)
    (calls : List (Nat × Nat)) : Cache :=
  calls.foldl (fun cc pk => (cacheGet dec maxItems cc pk.1 pk.2).cache) c

/-! ## `thumbnail_view.py` — selection state of `ThumbnailView` -/

/-- The selection-relevant state of `ThumbnailView`: the filtered entry
list and `_selected_path` (an `Optional[Path]`, hence at most one
selected path at any time). -/
structure ViewState where
  entries : List ImageEntry
  selectedPath : Option Nat
  deriving DecidableEq, Repr

/-- Embedding of `ThumbnailView.set_entries(entries)` (selection aspect): replace
the entry list; if a path is selected and no new entry carries it,
clear the selection (`self._selected_path = None`); the method never
sets a selection. -/
def set_entries (es : List ImageEntry) (s : ViewState) : ViewState :=
  { entries := es,
    selectedPath :=
      match s.selectedPath with
      | some p => if es.any (fun e => e.path = p) then some p else none
      | none => none }

/-- Embedding of `ThumbnailView._handle_select(entry)` (selection aspect):
`self._selected_path = entry.path`. -/
def handle_select (e : ImageEntry) (s : ViewState) : ViewState :=
  { s with selectedPath := some e.path }

/-! ## `thumbnail_view.py` — grid geometry -/

/-- The row index assigned by `_rebind_visible_items`:
`row_index = start_row + slot // self.columns`, where the slot shows
entry `start_row * columns + slot`. -/
def rebindRowIndex (startRow slot columns : Nat) : Nat :=
  startRow + slot / columns

/-- The column index assigned by `_rebind_visible_items`:
`column_index = slot % self.columns`. -/
def rebindColumnIndex (slot columns : Nat) : Nat := slot % columns

/-- The row count of `_update_scrollregion`:
`ceil(len(self._entries) / self.columns) if self._entries else 0`,
with `math.ceil` of the real division modelled over `ℚ`. -/
def totalRowsOf (numEntries columns : Nat) : Nat :=
  if numEntries = 0 then 0
  else Nat.ceil ((numEntries : ℚ) / (columns : ℚ))

/-! ## `app.py` — scan requests and supersession -/

/-- The status line (`self.status_var`): ready (`"準備完了"`), indexing
(`"インデックスを作成しています..."`), a progress report
(`"インデックス作成中... done/total"`), or completion
(`"読み込み完了 (n ファイル)"`). -/
inductive StatusMsg where
  | ready
  | indexing
  | progressReport (done total : Nat)
  | loaded (count : Nat)
  deriving DecidableEq, Repr

/-- A callback marshalled onto the interactive thread with
`root.after(0, ...)`: a progress status update, or
`_on_scan_complete(entries)`. -/
inductive UIMsg where
  | setProgress (done total : Nat)
  | scanComplete (entries : List ImageEntry)
  deriving DecidableEq, Repr

/-- Events of the scan machinery: a user-triggered `load_folder`
(issuing a fresh request id), a worker-side progress callback firing, a
worker-side completion firing, and the interactive thread delivering
the oldest marshalled callback. -/
inductive ScanEvent where
  | issueScan
  | workerProgress (rid done total : Nat)
  | workerComplete (rid : Nat) (entries : List ImageEntry)
  | deliverUI
  deriving DecidableEq, Repr

/-- The visible state of `PromptExplorerApp` touched by scans, plus the
queue of marshalled callbacks: `_scan_request_id`, `entries`,
the status line, the hit-count readout, the grid's entry list
(`thumbnail_view`'s contents), and the current query. -/
structure AppState where
  scanRequestId : Nat
  entries : List ImageEntry
  status : StatusMsg
  hitCount : Nat
  gridEntries : List ImageEntry
  searchText : List Char
  searchMode : List Char
  pending : List UIMsg
  deriving DecidableEq, Repr

/-- Deliver one marshalled callback on the interactive thread: a
progress lambda sets the status; `_on_scan_complete(entries)` stores
the entries, sets the completion status and runs `apply_filter`
(which filters with `ImageIndexer.search` and repopulates the grid). -/
def deliverMsg (s : AppState) (m : UIMsg) : AppState :=
  match m with
  | .setProgress d t => { s with status := .progressReport d t }
  | .scanComplete es =>
    let filtered := search s.searchText s.searchMode es
    { s with
        entries := es,
        status := .loaded es.length,
        hitCount := filtered.length,
        gridEntries := filtered }

/-- One step of the scan machinery.

* `issueScan` is `load_folder` on the interactive thread: increment
  `_scan_request_id`, set the indexing status, clear the view and the
  hit count (`entries` is not touched until a scan completes).
* `workerProgress`/`workerComplete` fire on the worker thread with
  their captured `request_id`; each one first checks
  `self._scan_request_id != request_id` and returns without doing
  anything when superseded, otherwise marshals its callback with
  `root.after(0, ...)`.
* `deliverUI` is the interactive thread running the oldest marshalled
  callback. -/
def stepScan (s : AppState) (e : ScanEvent) : AppState :=
  match e with
  | .issueScan =>
    { s with
        scanRequestId := s.scanRequestId + 1,
        status := .indexing,
        hitCount := 0,
        gridEntries := [] }
  | .workerProgress rid d t =>
    if s.scanRequestId ≠ rid then s
    else { s with pending := s.pending ++ [.setProgress d t] }
  | .workerComplete rid es =>
    if s.scanRequestId ≠ rid then s
    else { s with pending := s.pending ++ [.scanComplete es] }
  | .deliverUI =>
    match s.pending with
    | [] => s
    | m :: rest => deliverMsg { s with pending := rest } m

/-- Run a sequence of scan events. -/
def runScan (s : AppState) (evs : List ScanEvent) : AppState :=
  evs.foldl stepScan s

/-- Is this a worker-side notification of request `rid`? -/
def isWorkerEventOf (rid : Nat) : ScanEvent → Bool
  | .workerProgress rid' _ _ => rid' == rid
  | .workerComplete rid' _ => rid' == rid
  | _ => false

/-! ## Grid geometry (C8) -/

lemma totalRowsOf_eq (n c : Nat) (hc : 1 ≤ c) (hn : 1 ≤ n) :
    totalRowsOf n c = (n + c - 1) / c := by
  have hc0 : 0 < c := hc
  have hn0 : n ≠ 0 := by omega
  unfold totalRowsOf
  rw [if_neg hn0]
  have hform : (n + c - 1) / c = (n - 1) / c + 1 := by
    have he : n + c - 1 = (n - 1) + c := by omega
    rw [he, Nat.add_div_right _ hc0]
  rw [hform]
  have key : n ≤ ((n - 1) / c + 1) * c := by
    have expand : ((n - 1) / c + 1) * c = c * ((n - 1) / c) + c := by ring
    rw [expand]
    have hd : c * ((n - 1) / c) + (n - 1) % c = n - 1 := Nat.div_add_mod _ _
    have hm : (n - 1) % c < c := Nat.mod_lt _ hc0
    revert hd hm
    generalize c * ((n - 1) / c) = A
    generalize (n - 1) % c = R
    intro hd hm
    omega
  have low : (n - 1) / c * c < n := by
    have hb := Nat.div_mul_le_self (n - 1) c
    omega
  have hq : (0 : ℚ) < (c : ℚ) := by exact_mod_cast hc0
  have hne : (n - 1) / c + 1 ≠ 0 := Nat.succ_ne_zero _
  rw [Nat.ceil_eq_iff hne]
  constructor
  · simp only [Nat.add_sub_cancel]
    rw [lt_div_iff₀ hq]
    exact_mod_cast low
  · rw [div_le_iff₀ hq]
    exact_mod_cast key

/-- Claim C8: the grid places the entry shown in pool slot `slot` starting at
row `startRow` — that is, entry index `startRow * columns + slot` — at
row `index / columns` and column `index % columns` (row-major order),
and the total row count is `⌈n / columns⌉ = (n + columns - 1) / columns`;
in particular, for 5 columns and 23 entries, entry index 12 sits at row
2, column 2, and there are 5 rows. -/
theorem grid_geometry_c8 (n c startRow slot : Nat) (hc : 1 ≤ c) (hn : 1 ≤ n) :
    rebindRowIndex startRow slot c = (startRow * c + slot) / c ∧
    rebindColumnIndex slot c = (startRow * c + slot) % c ∧
    totalRowsOf n c = (n + c - 1) / c ∧
    rebindRowIndex 0 12 5 = 2 ∧ rebindColumnIndex 12 5 = 2 ∧
    totalRowsOf 23 5 = 5 := by
  have hc0 : 0 < c := hc
  refine ⟨?_, ?_, totalRowsOf_eq n c hc hn, by decide, by decide, ?_⟩
  · unfold rebindRowIndex
    rw [Nat.mul_comm startRow c, Nat.mul_add_div hc0]
  · unfold rebindColumnIndex
    rw [Nat.add_comm (startRow * c) slot, Nat.add_mul_mod_self_right]
  · rw [totalRowsOf_eq 23 5 (by decide) (by decide)]

theorem grid_geometry_c8_witness :
    rebindRowIndex 0 12 5 = (0 * 5 + 12) / 5 ∧ totalRowsOf 23 5 = 5 :=
  ⟨(grid_geometry_c8 23 5 0 12 (by decide) (by decide)).1,
   (grid_geometry_c8 23 5 0 12 (by decide) (by decide)).2.2.2.2.2⟩

/-! ## Selection state (C9) -/

/-- Claim C9: `_selected_path` is a single `Option` (at most one selected
path); `set_entries` never turns an empty selection into a selection
(no automatic re-selection), a selection surviving `set_entries` must
be the old one and present in the new set, and in the scenario of the
claim — select `X`, then filter to a set without `X` — the selection is
cleared and stays cleared when a set containing `X` is supplied
again. -/
theorem view_selection_c9 (s : ViewState) (X : ImageEntry)
    (es1 es2 : List ImageEntry) (hX : ∀ e ∈ es1, e.path ≠ X.path) :
    (∀ (t : ViewState) (es : List ImageEntry), t.selectedPath = none →
       (set_entries es t).selectedPath = none) ∧
    (∀ (t : ViewState) (es : List ImageEntry) (p : Nat),
       (set_entries es t).selectedPath = some p →
       t.selectedPath = some p ∧ ∃ e ∈ es, e.path = p) ∧
    (set_entries es1 (handle_select X s)).selectedPath = none ∧
    (set_entries es2 (set_entries es1 (handle_select X s))).selectedPath =
      none := by
  have hclear : ∀ (t : ViewState) (es : List ImageEntry),
      t.selectedPath = none → (set_entries es t).selectedPath = none := by
    intro t es ht
    simp [set_entries, ht]
  have hany : es1.any (fun e => e.path = X.path) = false := by
    simp only [List.any_eq_false, decide_eq_true_eq]
    exact hX
  have h3 : (set_entries es1 (handle_select X s)).selectedPath = none := by
    simp [set_entries, handle_select, hany]
  refine ⟨hclear, ?_, h3, hclear _ es2 h3⟩
  intro t es p h
  unfold set_entries at h
  cases hsel : t.selectedPath with
  | none => rw [hsel] at h; simp at h
  | some p0 =>
    rw [hsel] at h
    by_cases ha : es.any (fun e => e.path = p0)
    · simp only [ha, if_true] at h
      obtain ⟨e, he, hep⟩ := List.any_eq_true.mp ha
      cases h
      exact ⟨rfl, e, he, by simpa using hep⟩
    · simp only [Bool.not_eq_true] at ha
      simp [ha] at h

theorem view_selection_c9_witness :
    (set_entries [ImageEntry.mk 1 []]
        (handle_select (ImageEntry.mk 0 []) (ViewState.mk [] none))).selectedPath
      = none ∧
    (set_entries [ImageEntry.mk 0 [], ImageEntry.mk 1 []]
        (set_entries [ImageEntry.mk 1 []]
          (handle_select (ImageEntry.mk 0 []) (ViewState.mk [] none)))).selectedPath
      = none :=
  ⟨(view_selection_c9 (ViewState.mk [] none) (ImageEntry.mk 0 [])
      [ImageEntry.mk 1 []] [ImageEntry.mk 0 [], ImageEntry.mk 1 []]
      (by decide)).2.2.1,
   (view_selection_c9 (ViewState.mk [] none) (ImageEntry.mk 0 [])
      [ImageEntry.mk 1 []] [ImageEntry.mk 0 [], ImageEntry.mk 1 []]
      (by decide)).2.2.2⟩

/-! ## Scan supersession (C1) -/

lemma scanRequestId_mono (s : AppState) (e : ScanEvent) :
    s.scanRequestId ≤ (stepScan s e).scanRequestId := by
  cases e with
  | issueScan => simp [stepScan]
  | workerProgress rid d t =>
    simp only [stepScan]
    split <;> simp
  | workerComplete rid es =>
    simp only [stepScan]
    split <;> simp
  | deliverUI =>
    cases hp : s.pending with
    | nil => simp [stepScan, hp]
    | cons m rest => cases m <;> simp [stepScan, hp, deliverMsg]

lemma stepScan_stale (s : AppState) (e : ScanEvent) (rid : Nat)
    (hw : isWorkerEventOf rid e = true) (hne : s.scanRequestId ≠ rid) :
    stepScan s e = s := by
  cases e with
  | issueScan => simp [isWorkerEventOf] at hw
  | workerProgress rid' d t =>
    simp only [isWorkerEventOf, beq_iff_eq] at hw
    subst hw
    simp [stepScan, hne]
  | workerComplete rid' es =>
    simp only [isWorkerEventOf, beq_iff_eq] at hw
    subst hw
    simp [stepScan, hne]
  | deliverUI => simp [isWorkerEventOf] at hw

/-- Claim C1: once a scan request has been superseded (`rid` is older than
the current `_scan_request_id`), the superseded scan's worker-side
notifications — progress callbacks and the completion callback — are
no-ops: any event interleaving yields exactly the state of the same
interleaving with those notifications deleted, so none of the visible
state (entries list, status, hit count, grid) nor even the callback
queue is ever touched by them, and only the newer request's entries can
ever be applied. -/
theorem scan_supersession_c1 (s : AppState) (rid : Nat)
    (evs : List ScanEvent) (h : rid < s.scanRequestId) :
    runScan s evs = runScan s (evs.filter (fun e => !isWorkerEventOf rid e)) := by
  induction evs generalizing s with
  | nil => rfl
  | cons e evs ih =>
    by_cases hw : isWorkerEventOf rid e = true
    · have hstep : stepScan s e = s := stepScan_stale s e rid hw (by omega)
      have hfilter :
          (e :: evs).filter (fun e => !isWorkerEventOf rid e) =
            evs.filter (fun e => !isWorkerEventOf rid e) := by
        simp [List.filter_cons, hw]
      rw [hfilter]
      show runScan (stepScan s e) evs = _
      rw [hstep]
      exact ih s h
    · have hb : isWorkerEventOf rid e = false := by
        simpa using hw
      have hfilter :
          (e :: evs).filter (fun e => !isWorkerEventOf rid e) =
            e :: evs.filter (fun e => !isWorkerEventOf rid e) := by
        simp [List.filter_cons, hb]
      rw [hfilter]
      show runScan (stepScan s e) evs =
        runScan (stepScan s e) (evs.filter (fun e => !isWorkerEventOf rid e))
      exact ih (stepScan s e) (lt_of_lt_of_le h (scanRequestId_mono s e))

theorem scan_supersession_c1_witness :
    runScan (AppState.mk 2 [] .ready 0 [] [] "exact".toList [])
        [.workerProgress 1 5 10, .workerComplete 1 [ImageEntry.mk 0 []],
          .deliverUI]
      = runScan (AppState.mk 2 [] .ready 0 [] [] "exact".toList [])
          (([.workerProgress 1 5 10, .workerComplete 1 [ImageEntry.mk 0 []],
              .deliverUI] : List ScanEvent).filter
            (fun e => !isWorkerEventOf 1 e)) :=
  scan_supersession_c1 (AppState.mk 2 [] .ready 0 [] [] "exact".toList []) 1
    [.workerProgress 1 5 10, .workerComplete 1 [ImageEntry.mk 0 []],
      .deliverUI] (by decide)

/-! ## Placeholder on decode failure (C6) -/

/-- Claim C6: when the decode fails, `_create_thumbnail`'s body raises, the
exception is caught, and a solid-colour `size × size` placeholder is
produced; `get` (on a miss) returns exactly that placeholder, and the
embedded `get` is a total function — no exception reaches its
caller. -/
theorem placeholder_on_failure_c6 (dec : Nat → Option (Nat × Nat))
    (N : Nat) (c : Cache) (p size : Nat)
    (hfail : dec p = none) (hmiss : lookupAssoc (p, size) c = none) :
    createThumbnailBody dec p size = .error () ∧
    createThumbnail dec p size = .solid size size (60, 60, 60, 255) ∧
    (cacheGet dec N c p size).image = .solid size size (60, 60, 60, 255) := by
  have hbody : createThumbnailBody dec p size = .error () := by
    unfold createThumbnailBody
    rw [hfail]
  have hthumb : createThumbnail dec p size = .solid size size (60, 60, 60, 255) := by
    unfold createThumbnail
    rw [hbody]
  refine ⟨hbody, hthumb, ?_⟩
  simp [cacheGet, hmiss, hthumb]

theorem placeholder_on_failure_c6_witness :
    (cacheGet (fun _ => none) 256 [] 0 160).image =
      .solid 160 160 (60, 60, 60, 255) :=
  (placeholder_on_failure_c6 (fun _ => none) 256 [] 0 160 rfl rfl).2.2

/-! ## Cache lemmas shared by C2, C7, C10 -/

lemma lookupAssoc_append {α β : Type} [DecidableEq α] (k : α)
    (l₁ l₂ : List (α × β)) :
    lookupAssoc k (l₁ ++ l₂) =
      match lookupAssoc k l₁ with
      | some v => some v
      | none => lookupAssoc k l₂ := by
  induction l₁ with
  | nil => rfl
  | cons kv rest ih =>
    obtain ⟨k', v⟩ := kv
    by_cases h : k' = k <;> simp [lookupAssoc, h, ih]

lemma lookupAssoc_eq_none_iff {α β : Type} [DecidableEq α] (k : α)
    (l : List (α × β)) :
    lookupAssoc k l = none ↔ k ∉ l.map Prod.fst := by
  induction l with
  | nil => simp [lookupAssoc]
  | cons kv rest ih =>
    obtain ⟨k', v⟩ := kv
    simp only [lookupAssoc, List.map_cons, List.mem_cons]
    by_cases h : k' = k
    · subst h
      simp
    · simp [h, ih, Ne.symm h]

lemma lookupAssoc_mem {α β : Type} [DecidableEq α] (k : α)
    (l : List (α × β)) (h : k ∈ l.map Prod.fst) :
    ∃ v, lookupAssoc k l = some v := by
  cases hl : lookupAssoc k l with
  | none => exact absurd ((lookupAssoc_eq_none_iff k l).mp hl) (by simpa using h)
  | some v => exact ⟨v, rfl⟩

lemma keysOf_append (c₁ c₂ : Cache) :
    keysOf (c₁ ++ c₂) = keysOf c₁ ++ keysOf c₂ := by
  simp [keysOf]

lemma eraseKey_length (k : Nat × Nat) (c : Cache)
    (h : k ∈ keysOf c) : (eraseKey k c).length + 1 = c.length := by
  induction c with
  | nil => simp [keysOf] at h
  | cons kv rest ih =>
    by_cases he : kv.1 = k
    · simp [eraseKey, he]
    · have hr : k ∈ keysOf rest := by
        simp [keysOf] at h ⊢
        rcases h with h | h
        · exact absurd h.symm he
        · exact h
      simp only [eraseKey, if_neg he, List.length_cons]
      rw [← ih hr]

lemma keysOf_eraseKey_subset (k x : Nat × Nat) (c : Cache)
    (h : x ∈ keysOf (eraseKey k c)) : x ∈ keysOf c := by
  induction c with
  | nil => simp [eraseKey, keysOf] at h
  | cons kv rest ih =>
    by_cases he : kv.1 = k
    · simp only [eraseKey, if_pos he] at h
      simp [keysOf]
      right
      simpa [keysOf] using h
    · simp only [eraseKey, if_neg he] at h
      simp only [keysOf, List.map_cons, List.mem_cons] at h ⊢
      rcases h with h | h
      · exact Or.inl h
      · exact Or.inr (ih h)

lemma lookupAssoc_eraseKey_none (k k' : Nat × Nat) (c : Cache)
    (h : lookupAssoc k' c = none) :
    lookupAssoc k' (eraseKey k c) = none := by
  rw [lookupAssoc_eq_none_iff] at h ⊢
  intro hmem
  exact h (keysOf_eraseKey_subset k k' c hmem)

lemma moveToEnd_of_mem (k : Nat × Nat) (v : TkImage) (c : Cache)
    (h : lookupAssoc k c = some v) :
    moveToEnd k c = eraseKey k c ++ [(k, v)] := by
  unfold moveToEnd
  rw [h]

lemma cacheGet_hit (dec : Nat → Option (Nat × Nat)) (N : Nat) (c : Cache)
    (p s : Nat) (v : TkImage) (h : lookupAssoc (p, s) c = some v) :
    cacheGet dec N c p s =
      { image := v, cache := eraseKey (p, s) c ++ [((p, s), v)],
        decoded := false } := by
  simp [cacheGet, h, moveToEnd_of_mem _ _ _ h]

lemma cacheGet_miss (dec : Nat → Option (Nat × Nat)) (N : Nat) (c : Cache)
    (p s : Nat) (h : lookupAssoc (p, s) c = none) :
    cacheGet dec N c p s =
      { image := createThumbnail dec p s,
        cache :=
          if N < c.length + 1 then
            (c ++ [((p, s), createThumbnail dec p s)]).tail
          else c ++ [((p, s), createThumbnail dec p s)],
        decoded := true } := by
  simp [cacheGet, h]

lemma cacheGet_decoded_false_of_mem (dec : Nat → Option (Nat × Nat))
    (N : Nat) (c : Cache) (k : Nat × Nat) (h : k ∈ keysOf c) :
    (cacheGet dec N c k.1 k.2).decoded = false := by
  obtain ⟨p, s⟩ := k
  obtain ⟨v, hv⟩ := lookupAssoc_mem (p, s) c (by simpa [keysOf] using h)
  rw [cacheGet_hit dec N c p s v hv]

lemma cacheGet_length_le (dec : Nat → Option (Nat × Nat)) (N : Nat)
    (c : Cache) (p s : Nat) (hcap : c.length ≤ N) :
    (cacheGet dec N c p s).cache.length ≤ N := by
  cases hl : lookupAssoc (p, s) c with
  | some v =>
    rw [cacheGet_hit dec N c p s v hl]
    have hm : (p, s) ∈ keysOf c := by
      rcases lookupAssoc_eq_none_iff (p, s) c with ⟨_, h2⟩
      by_contra hno
      rw [h2 (by simpa [keysOf] using hno)] at hl
      cases hl
    have := eraseKey_length (p, s) c hm
    simp only [List.length_append, List.length_cons, List.length_nil]
    omega
  | none =>
    rw [cacheGet_miss dec N c p s hl]
    simp only []
    split
    · simp only [List.length_tail, List.length_append, List.length_cons,
        List.length_nil]
      omega
    · rename_i hnot
      simp only [List.length_append, List.length_cons, List.length_nil]
      omega

lemma runGets_length_le (dec : Nat → Option (Nat × Nat)) (N : Nat)
    (c : Cache) (calls : List (Nat × Nat)) (hcap : c.length ≤ N) :
    (runGets dec N c calls).length ≤ N := by
  induction calls generalizing c with
  | nil => simpa [runGets]
  | cons k calls ih =>
    show (runGets dec N (cacheGet dec N c k.1 k.2).cache calls).length ≤ N
    exact ih _ (cacheGet_length_le dec N c k.1 k.2 hcap)

lemma keysOf_eq_map_fst (c : Cache) : keysOf c = c.map Prod.fst := rfl

lemma keysOf_map_pair (g : Nat × Nat → TkImage) (l : List (Nat × Nat)) :
    keysOf (l.map (fun k => (k, g k))) = l := by
  induction l with
  | nil => rfl
  | cons k l ih =>
    simp only [List.map_cons, keysOf] at ih ⊢
    rw [ih]

lemma runGets_append (dec : Nat → Option (Nat × Nat)) (N : Nat) (c : Cache)
    (l₁ l₂ : List (Nat × Nat)) :
    runGets dec N c (l₁ ++ l₂) = runGets dec N (runGets dec N c l₁) l₂ := by
  unfold runGets
  rw [List.foldl_append]

lemma runGets_fresh (dec : Nat → Option (Nat × Nat)) (N : Nat) (c : Cache)
    (ks : List (Nat × Nat)) (hfresh : ∀ k ∈ ks, lookupAssoc k c = none)
    (hnd : ks.Nodup) (hcap : c.length + ks.length ≤ N) :
    runGets dec N c ks =
      c ++ ks.map (fun k => (k, createThumbnail dec k.1 k.2)) := by
  induction ks generalizing c with
  | nil => simp [runGets]
  | cons k ks ih =>
    obtain ⟨p, s⟩ := k
    have hk : lookupAssoc (p, s) c = none := hfresh (p, s) (List.mem_cons_self _ _)
    have hnolimit : ¬ N < c.length + 1 := by
      simp only [List.length_cons] at hcap
      omega
    have hstep : (cacheGet dec N c p s).cache =
        c ++ [((p, s), createThumbnail dec p s)] := by
      rw [cacheGet_miss dec N c p s hk]
      simp [hnolimit]
    show runGets dec N (cacheGet dec N c p s).cache ks = _
    rw [hstep, ih (c ++ [((p, s), createThumbnail dec p s)]) ?_ ?_ ?_]
    · simp
    · intro k' hk'
      rw [lookupAssoc_append]
      rw [hfresh k' (List.mem_cons_of_mem _ hk')]
      have hne : ¬ ((p, s) = k') := by
        intro heq
        rw [heq] at hnd
        exact (List.nodup_cons.mp hnd).1 hk'
      simp [lookupAssoc, hne]
    · exact (List.nodup_cons.mp hnd).2
    · simp only [List.length_append, List.length_cons, List.length_nil]
      simp only [List.length_cons] at hcap
      omega

lemma keysOf_tail (c : Cache) : keysOf c.tail = (keysOf c).tail := by
  cases c <;> rfl

lemma lookupAssoc_cons_none {α β : Type} [DecidableEq α] (k : α)
    (kv : α × β) (l : List (α × β)) (h : lookupAssoc k (kv :: l) = none) :
    lookupAssoc k l = none := by
  obtain ⟨k', v⟩ := kv
  by_cases he : k' = k
  · simp [lookupAssoc, he] at h
  · simpa [lookupAssoc, he] using h

lemma createThumbnail_of_fail (dec : Nat → Option (Nat × Nat)) (p size : Nat)
    (hfail : dec p = none) :
    createThumbnail dec p size = .solid size size (60, 60, 60, 255) := by
  unfold createThumbnail createThumbnailBody
  rw [hfail]

/-! ## The LRU contract of the cache (C2) -/

/-- Claim C2: for every sequence of `get` calls on an initially empty cache
of capacity `N`, the entry count never exceeds `N`; and after getting
`N + 1` distinct keys the cache holds exactly the last `N` keys in
access order — the evicted key is precisely the least-recently-accessed
one (the first key gotten) — while every other key is still retrievable
by a `get` that performs no decode (`decoded = false`). -/
theorem thumbnail_cache_lru_c2 (dec : Nat → Option (Nat × Nat)) (N : Nat)
    (ks : List (Nat × Nat)) (hnd : ks.Nodup) (hlen : ks.length = N + 1) :
    (∀ calls : List (Nat × Nat), (runGets dec N [] calls).length ≤ N) ∧
    keysOf (runGets dec N [] ks) = ks.tail ∧
    (∀ k0, ks.head? = some k0 → k0 ∉ keysOf (runGets dec N [] ks)) ∧
    (∀ k ∈ ks.tail,
      (cacheGet dec N (runGets dec N [] ks) k.1 k.2).decoded = false) := by
  have part1 : ∀ calls, (runGets dec N [] calls).length ≤ N :=
    fun calls => runGets_length_le dec N [] calls (by simp)
  have hlt : (ks.take N).length = N := by
    rw [List.length_take, hlen]
    omega
  obtain ⟨⟨pN, sN⟩, hdropEq⟩ : ∃ kN, ks.drop N = [kN] := by
    apply List.length_eq_one.mp
    rw [List.length_drop, hlen]
    omega
  have hks : ks.take N ++ [(pN, sN)] = ks := by
    rw [← hdropEq]
    exact List.take_append_drop N ks
  have hndSplit : (ks.take N ++ [(pN, sN)]).Nodup := by
    rw [hks]
    exact hnd
  have hkNnotin : (pN, sN) ∉ ks.take N := by
    intro hmem
    exact (List.disjoint_left.mp (List.nodup_append.mp hndSplit).2.2 hmem)
      (List.mem_singleton_self _)
  have hfill : runGets dec N [] (ks.take N) =
      (ks.take N).map (fun k => (k, createThumbnail dec k.1 k.2)) := by
    have h := runGets_fresh dec N [] (ks.take N) (fun k _ => rfl)
      (List.Nodup.sublist (List.take_sublist N ks) hnd) (by simp [hlt])
    simpa using h
  have hmissN : lookupAssoc (pN, sN)
      ((ks.take N).map (fun k => (k, createThumbnail dec k.1 k.2))) = none := by
    rw [lookupAssoc_eq_none_iff, ← keysOf_eq_map_fst, keysOf_map_pair]
    exact hkNnotin
  have hrun : runGets dec N [] ks =
      (cacheGet dec N
        ((ks.take N).map (fun k => (k, createThumbnail dec k.1 k.2)))
        pN sN).cache := by
    conv_lhs => rw [← hks]
    rw [runGets_append, hfill]
    rfl
  have hfinal : runGets dec N [] ks =
      ((ks.take N).map (fun k => (k, createThumbnail dec k.1 k.2)) ++
        [((pN, sN), createThumbnail dec pN sN)]).tail := by
    rw [hrun, cacheGet_miss dec N _ pN sN hmissN]
    have hcond : N <
        ((ks.take N).map (fun k => (k, createThumbnail dec k.1 k.2))).length
          + 1 := by
      rw [List.length_map, hlt]
      omega
    simp only [hcond, if_pos]
  have hkeys : keysOf (runGets dec N [] ks) = ks.tail := by
    rw [hfinal]
    cases htake : ks.take N with
    | nil =>
      have hksEq : ks = [(pN, sN)] := by
        rw [← hks, htake]
        rfl
      simp [hksEq, keysOf]
    | cons a rest =>
      have htail : ks.tail = rest ++ [(pN, sN)] := by
        rw [← hks, htake]
        rfl
      have hrest :
          keysOf (rest.map (fun k => (k, createThumbnail dec k.1 k.2))) =
            rest := keysOf_map_pair _ rest
      rw [htail]
      show keysOf
          (rest.map (fun k => (k, createThumbnail dec k.1 k.2)) ++
            [((pN, sN), createThumbnail dec pN sN)]) =
        rest ++ [(pN, sN)]
      rw [keysOf_append, hrest]
      rfl
  refine ⟨part1, hkeys, ?_, ?_⟩
  · intro k0 hk0
    rw [hkeys]
    cases ks with
    | nil => cases hk0
    | cons a t =>
      have : a = k0 := by
        simpa using hk0
      subst this
      exact (List.nodup_cons.mp hnd).1
  · intro k hk
    apply cacheGet_decoded_false_of_mem
    rw [hkeys]
    exact hk

theorem thumbnail_cache_lru_c2_witness :
    keysOf (runGets (fun _ => none) 1 [] [(0, 160), (1, 160)]) = [(1, 160)] ∧
    (0, 160) ∉ keysOf (runGets (fun _ => none) 1 [] [(0, 160), (1, 160)]) :=
  ⟨(thumbnail_cache_lru_c2 (fun _ => none) 1 [(0, 160), (1, 160)]
      (by decide) (by decide)).2.1,
   (thumbnail_cache_lru_c2 (fun _ => none) 1 [(0, 160), (1, 160)]
      (by decide) (by decide)).2.2.1 (0, 160) rfl⟩

/-! ## Recency refresh on repeated `get` (C7) -/

/-- Claim C7: a repeated `get` on a key `(p, s)` already in the cache keeps
the entry count unchanged, performs no decode, and moves the key to the
most-recently-used end; a subsequent capacity eviction (a `get` of a
fresh key on a full cache holding at least one other key) drops the
oldest *other* key — the front of the remaining order — and `(p, s)`
survives. -/
theorem cache_recency_c7 (dec : Nat → Option (Nat × Nat)) (N : Nat)
    (c : Cache) (p s p' s' : Nat)
    (hmem : (p, s) ∈ keysOf c) (hfresh : (p', s') ∉ keysOf c)
    (hlen : c.length = N) (h2 : 2 ≤ c.length) :
    (cacheGet dec N c p s).cache.length = c.length ∧
    (cacheGet dec N c p s).decoded = false ∧
    keysOf (cacheGet dec N c p s).cache =
      keysOf (eraseKey (p, s) c) ++ [(p, s)] ∧
    keysOf (cacheGet dec N (cacheGet dec N c p s).cache p' s').cache =
      (keysOf (eraseKey (p, s) c)).tail ++ [(p, s), (p', s')] ∧
    (p, s) ∈ keysOf (cacheGet dec N (cacheGet dec N c p s).cache p' s').cache
      := by
  obtain ⟨v, hv⟩ :=
    lookupAssoc_mem (p, s) c (by rwa [← keysOf_eq_map_fst])
  have hhit := cacheGet_hit dec N c p s v hv
  have herlen : (eraseKey (p, s) c).length + 1 = c.length :=
    eraseKey_length _ _ hmem
  have hr1 : (cacheGet dec N c p s).cache =
      eraseKey (p, s) c ++ [((p, s), v)] := by rw [hhit]
  have hlen1 : (cacheGet dec N c p s).cache.length = c.length := by
    rw [hr1]
    simp only [List.length_append, List.length_cons, List.length_nil]
    omega
  have hkeys1 : keysOf (cacheGet dec N c p s).cache =
      keysOf (eraseKey (p, s) c) ++ [(p, s)] := by
    rw [hr1, keysOf_append]
    rfl
  have hne : ¬ ((p, s) = (p', s')) := by
    intro heq
    exact hfresh (heq ▸ hmem)
  have hmiss2 : lookupAssoc (p', s') (cacheGet dec N c p s).cache = none := by
    rw [hr1, lookupAssoc_append]
    have h1 : lookupAssoc (p', s') (eraseKey (p, s) c) = none :=
      lookupAssoc_eraseKey_none _ _ _
        (by rw [lookupAssoc_eq_none_iff, ← keysOf_eq_map_fst]; exact hfresh)
    rw [h1]
    simp [lookupAssoc, hne]
  have hmiss2' := cacheGet_miss dec N (cacheGet dec N c p s).cache p' s' hmiss2
  have hcond : N < (cacheGet dec N c p s).cache.length + 1 := by
    rw [hlen1, hlen]
    omega
  obtain ⟨e0, erest, herest⟩ : ∃ e0 erest, eraseKey (p, s) c = e0 :: erest := by
    cases he : eraseKey (p, s) c with
    | nil =>
      rw [he] at herlen
      simp at herlen
      omega
    | cons e0 erest => exact ⟨e0, erest, rfl⟩
  have hfinal2 : (cacheGet dec N (cacheGet dec N c p s).cache p' s').cache =
      erest ++ [((p, s), v)] ++ [((p', s'), createThumbnail dec p' s')] := by
    rw [hmiss2']
    simp only [hcond, if_pos]
    rw [hr1, herest]
    rfl
  have hkeys2 : keysOf (cacheGet dec N (cacheGet dec N c p s).cache p' s').cache
      = (keysOf (eraseKey (p, s) c)).tail ++ [(p, s), (p', s')] := by
    rw [hfinal2, keysOf_append, keysOf_append, herest]
    show keysOf erest ++ [(p, s)] ++ [(p', s')] =
      (keysOf (e0 :: erest)).tail ++ [(p, s), (p', s')]
    have : (keysOf (e0 :: erest)).tail = keysOf erest := rfl
    rw [this, List.append_assoc]
    rfl
  refine ⟨hlen1, by rw [hhit], hkeys1, hkeys2, ?_⟩
  rw [hkeys2]
  simp

theorem cache_recency_c7_witness :
    keysOf (cacheGet (fun _ => none) 2
        (cacheGet (fun _ => none) 2
          [((0, 160), TkImage.solid 1 1 (0, 0, 0, 0)),
            ((1, 160), TkImage.solid 2 2 (0, 0, 0, 0))] 0 160).cache
        2 160).cache =
      [(0, 160), (2, 160)] ∧
    (0, 160) ∈ keysOf (cacheGet (fun _ => none) 2
        (cacheGet (fun _ => none) 2
          [((0, 160), TkImage.solid 1 1 (0, 0, 0, 0)),
            ((1, 160), TkImage.solid 2 2 (0, 0, 0, 0))] 0 160).cache
        2 160).cache :=
  ⟨(cache_recency_c7 (fun _ => none) 2
      [((0, 160), TkImage.solid 1 1 (0, 0, 0, 0)),
        ((1, 160), TkImage.solid 2 2 (0, 0, 0, 0))] 0 160 2 160
      (by decide) (by decide) rfl (by decide)).2.2.2.1,
   (cache_recency_c7 (fun _ => none) 2
      [((0, 160), TkImage.solid 1 1 (0, 0, 0, 0)),
        ((1, 160), TkImage.solid 2 2 (0, 0, 0, 0))] 0 160 2 160
      (by decide) (by decide) rfl (by decide)).2.2.2.2⟩

/-! ## Failure placeholders enter the cache like successes (C10) -/

/-- Claim C10: when the decode fails on a miss, `get` stores the placeholder
in the cache under the requested `(path, size)` key exactly as it would
a successful thumbnail (the decode step ran, `decoded = true`), and a
subsequent `get` of the same key is a pure cache hit: it performs no
decode and returns the cached placeholder. -/
theorem cached_placeholder_c10 (dec : Nat → Option (Nat × Nat)) (N : Nat)
    (c : Cache) (p size : Nat)
    (hfail : dec p = none) (hmiss : lookupAssoc (p, size) c = none)
    (hcap : c.length ≤ N) (hN : 1 ≤ N) :
    (cacheGet dec N c p size).decoded = true ∧
    lookupAssoc (p, size) (cacheGet dec N c p size).cache =
      some (.solid size size (60, 60, 60, 255)) ∧
    (cacheGet dec N (cacheGet dec N c p size).cache p size).decoded = false ∧
    (cacheGet dec N (cacheGet dec N c p size).cache p size).image =
      .solid size size (60, 60, 60, 255) := by
  have hthumb := createThumbnail_of_fail dec p size hfail
  have hmiss' := cacheGet_miss dec N c p size hmiss
  have hlk : lookupAssoc (p, size) (cacheGet dec N c p size).cache =
      some (TkImage.solid size size (60, 60, 60, 255)) := by
    rw [hmiss', hthumb]
    simp only []
    split
    · rename_i hlt
      cases c with
      | nil =>
        exfalso
        simp at hlt
        omega
      | cons kv rest =>
        show lookupAssoc (p, size)
            (rest ++ [((p, size), TkImage.solid size size (60, 60, 60, 255))])
          = _
        rw [lookupAssoc_append,
          lookupAssoc_cons_none (p, size) kv rest hmiss]
        simp [lookupAssoc]
    · rw [lookupAssoc_append, hmiss]
      simp [lookupAssoc]
  have hhit2 := cacheGet_hit dec N (cacheGet dec N c p size).cache p size
    (TkImage.solid size size (60, 60, 60, 255)) hlk
  refine ⟨by rw [hmiss'], hlk, by rw [hhit2], by rw [hhit2]⟩

theorem cached_placeholder_c10_witness :
    (cacheGet (fun _ => none) 256 [] 0 160).decoded = true ∧
    (cacheGet (fun _ => none) 256
        (cacheGet (fun _ => none) 256 [] 0 160).cache 0 160).decoded = false ∧
    (cacheGet (fun _ => none) 256
        (cacheGet (fun _ => none) 256 [] 0 160).cache 0 160).image =
      .solid 160 160 (60, 60, 60, 255) :=
  ⟨(cached_placeholder_c10 (fun _ => none) 256 [] 0 160 rfl rfl
      (by decide) (by decide)).1,
   (cached_placeholder_c10 (fun _ => none) 256 [] 0 160 rfl rfl
      (by decide) (by decide)).2.2.1,
   (cached_placeholder_c10 (fun _ => none) 256 [] 0 160 rfl rfl
      (by decide) (by decide)).2.2.2⟩

/-! ## Deterministic scan order (C5) -/

lemma mem_insertSorted (x y : Nat) (l : List Nat) :
    y ∈ insertSorted x l ↔ y = x ∨ y ∈ l := by
  induction l with
  | nil => simp [insertSorted]
  | cons a l ih =>
    by_cases h : x ≤ a
    · simp [insertSorted, h]
    · simp [insertSorted, h, ih]
      tauto

lemma sorted_insertSorted (x : Nat) (l : List Nat)
    (hs : List.Sorted (· ≤ ·) l) :
    List.Sorted (· ≤ ·) (insertSorted x l) := by
  induction l with
  | nil => simp [insertSorted]
  | cons a l ih =>
    rw [List.sorted_cons] at hs
    by_cases h : x ≤ a
    · rw [insertSorted, if_pos h, List.sorted_cons]
      refine ⟨?_, List.sorted_cons.mpr hs⟩
      intro b hb
      rcases List.mem_cons.mp hb with hb | hb
      · omega
      · have := hs.1 b hb
        omega
    · rw [insertSorted, if_neg h, List.sorted_cons]
      refine ⟨?_, ih hs.2⟩
      intro b hb
      rcases (mem_insertSorted x b l).mp hb with hb | hb
      · omega
      · exact hs.1 b hb

lemma sorted_sortPaths (l : List Nat) :
    List.Sorted (· ≤ ·) (sortPaths l) := by
  induction l with
  | nil => simp [sortPaths]
  | cons a l ih => exact sorted_insertSorted a (sortPaths l) ih

lemma mem_sortPaths (y : Nat) (l : List Nat) :
    y ∈ sortPaths l ↔ y ∈ l := by
  induction l with
  | nil => simp [sortPaths]
  | cons a l ih =>
    show y ∈ insertSorted a (sortPaths l) ↔ _
    rw [mem_insertSorted]
    simp [ih]

lemma buildPrompts_not_mem (ex : Nat → List Char) (order : List Nat)
    (m : Nat → Option (List Char)) (q : Nat) (h : q ∉ order) :
    order.foldl (fun m p => fun q' => if q' = p then some (ex p) else m q')
      m q = m q := by
  induction order generalizing m with
  | nil => rfl
  | cons o rest ih =>
    have hq : q ∉ rest := fun hr => h (List.mem_cons_of_mem _ hr)
    have hqo : q ≠ o := fun he => h (he ▸ List.mem_cons_self _ _)
    show rest.foldl _ (fun q' => if q' = o then some (ex o) else m q') q = m q
    rw [ih _ hq]
    simp [hqo]

lemma buildPrompts_foldl_mem (ex : Nat → List Char) (order : List Nat)
    (m : Nat → Option (List Char)) (q : Nat) (h : q ∈ order) :
    order.foldl (fun m p => fun q' => if q' = p then some (ex p) else m q')
      m q = some (ex q) := by
  induction order generalizing m with
  | nil => cases h
  | cons o rest ih =>
    by_cases hr : q ∈ rest
    · exact ih _ hr
    · have hqo : q = o := by
        rcases List.mem_cons.mp h with h' | h'
        · exact h'
        · exact absurd h' hr
      subst hqo
      show rest.foldl _ (fun q' => if q' = q then some (ex q) else m q') q = _
      rw [buildPrompts_not_mem ex rest _ q hr]
      simp

lemma buildPrompts_mem (ex : Nat → List Char) (order : List Nat) (q : Nat)
    (h : q ∈ order) : buildPrompts ex order q = some (ex q) :=
  buildPrompts_foldl_mem ex order _ q h

/-- Claim C5: `scan_folder` returns the entries of the sorted file listing,
each paired with its extracted prompt, for *every* completion order of
the concurrent per-file extraction that covers the files; the result is
determined by the sorted listing alone, and its path sequence is
sorted. -/
theorem scan_order_c5 (files : List Nat) (ex : Nat → List Char)
    (order : List Nat) (hcov : ∀ p ∈ files, p ∈ order) :
    scan_folder files ex order =
      (sortPaths files).map (fun p => ImageEntry.mk p (ex p)) ∧
    List.Sorted (· ≤ ·) ((scan_folder files ex order).map ImageEntry.path) := by
  have hmain : scan_folder files ex order =
      (sortPaths files).map (fun p => ImageEntry.mk p (ex p)) := by
    unfold scan_folder
    by_cases hz : (sortPaths files).length = 0
    · rw [if_pos hz]
      rw [List.length_eq_zero] at hz
      rw [hz]
      rfl
    · rw [if_neg hz]
      apply List.map_congr_left
      intro p hp
      have hpo : p ∈ order := hcov p ((mem_sortPaths p files).mp hp)
      rw [buildPrompts_mem ex order p hpo]
      rfl
  refine ⟨hmain, ?_⟩
  rw [hmain, List.map_map]
  have : (ImageEntry.path ∘ fun p => ImageEntry.mk p (ex p)) = id := by
    funext p
    rfl
  rw [this, List.map_id]
  exact sorted_sortPaths files

theorem scan_order_c5_witness :
    scan_folder [2, 0, 1] (fun _ => []) [1, 0, 2] =
      [ImageEntry.mk 0 [], ImageEntry.mk 1 [], ImageEntry.mk 2 []] ∧
    List.Sorted (· ≤ ·)
      ((scan_folder [2, 0, 1] (fun _ => []) [1, 0, 2]).map ImageEntry.path) :=
  ⟨(scan_order_c5 [2, 0, 1] (fun _ => []) [1, 0, 2] (by decide)).1,
   (scan_order_c5 [2, 0, 1] (fun _ => []) [1, 0, 2] (by decide)).2⟩

/-! ## String lemmas for the filter engine (C3) -/

lemma isPyWs_ne_comma (c : Char) (h : isPyWs c = true) : c ≠ ',' := by
  intro he
  subst he
  simp [isPyWs] at h

lemma splitComma_ne_nil (s : List Char) : splitComma s ≠ [] := by
  cases s with
  | nil => simp [splitComma]
  | cons c rest =>
    unfold splitComma
    by_cases h : c = ','
    · simp [h]
    · rw [if_neg h]
      cases splitComma rest <;> simp

lemma splitComma_all_ws (s : List Char) (h : ∀ c ∈ s, isPyWs c = true) :
    splitComma s = [s] := by
  induction s with
  | nil => rfl
  | cons c rest ih =>
    have hc : c ≠ ',' := isPyWs_ne_comma c (h c (List.mem_cons_self _ _))
    have hr : splitComma rest = [rest] :=
      ih fun c' hc' => h c' (List.mem_cons_of_mem _ hc')
    unfold splitComma
    rw [if_neg hc, hr]

lemma stripR_all_ws (s : List Char) (h : ∀ c ∈ s, isPyWs c = true) :
    stripR s = [] := by
  induction s with
  | nil => rfl
  | cons c rest ih =>
    have hr : stripR rest = [] :=
      ih fun c' hc' => h c' (List.mem_cons_of_mem _ hc')
    unfold stripR
    rw [hr, if_pos (h c (List.mem_cons_self _ _))]

lemma stripR_decomp (s : List Char) :
    ∃ w, s = stripR s ++ w ∧ ∀ c ∈ w, isPyWs c = true := by
  induction s with
  | nil => exact ⟨[], rfl, by simp⟩
  | cons c rest ih =>
    obtain ⟨w, hw, hws⟩ := ih
    cases hr : stripR rest with
    | nil =>
      by_cases hc : isPyWs c = true
      · refine ⟨c :: rest, ?_, ?_⟩
        · show c :: rest = stripR (c :: rest) ++ (c :: rest)
          unfold stripR
          rw [hr, if_pos hc]
          rfl
        · intro c' hc'
          rcases List.mem_cons.mp hc' with h' | h'
          · subst h'
            exact hc
          · rw [hr] at hw
            simp only [List.nil_append] at hw
            exact hws c' (hw ▸ h')
      · refine ⟨rest, ?_, ?_⟩
        · show c :: rest = stripR (c :: rest) ++ rest
          unfold stripR
          rw [hr, if_neg hc]
          rfl
        · intro c' hc'
          rw [hr] at hw
          simp only [List.nil_append] at hw
          exact hws c' (hw ▸ hc')
    | cons t ts =>
      refine ⟨w, ?_, hws⟩
      show c :: rest = stripR (c :: rest) ++ w
      unfold stripR
      rw [hr]
      show c :: rest = c :: (t :: ts ++ w)
      rw [← hr]
      exact congrArg (c :: ·) hw

lemma stripR_append_ws (t w : List Char) (h : ∀ c ∈ w, isPyWs c = true) :
    stripR (t ++ w) = stripR t := by
  induction t with
  | nil => simpa using stripR_all_ws w h
  | cons c t ih =>
    show stripR (c :: (t ++ w)) = stripR (c :: t)
    unfold stripR
    rw [ih]

lemma pyStrip_cons_ws (c : Char) (t : List Char) (h : isPyWs c = true) :
    pyStrip (c :: t) = pyStrip t := by
  unfold pyStrip
  cases hr : stripR t with
  | nil =>
    have : stripR (c :: t) = [] := by
      unfold stripR
      rw [hr, if_pos h]
    rw [this]
  | cons u us =>
    have : stripR (c :: t) = c :: u :: us := by
      unfold stripR
      rw [hr]
    rw [this]
    unfold stripL
    rw [List.dropWhile_cons, if_pos h]

lemma pyStrip_append_ws (t w : List Char) (h : ∀ c ∈ w, isPyWs c = true) :
    pyStrip (t ++ w) = pyStrip t := by
  unfold pyStrip
  rw [stripR_append_ws t w h]

lemma pyStrip_ws_prepend (w t : List Char) (h : ∀ c ∈ w, isPyWs c = true) :
    pyStrip (w ++ t) = pyStrip t := by
  induction w with
  | nil => rfl
  | cons c w ih =>
    show pyStrip (c :: (w ++ t)) = pyStrip t
    rw [pyStrip_cons_ws c _ (h c (List.mem_cons_self _ _))]
    exact ih fun c' hc' => h c' (List.mem_cons_of_mem _ hc')

lemma pyStrip_eq_nil_all_ws (s : List Char) (h : pyStrip s = []) :
    ∀ c ∈ s, isPyWs c = true := by
  obtain ⟨w, hw, hws⟩ := stripR_decomp s
  have hsr : ∀ c ∈ stripR s, isPyWs c = true := by
    unfold pyStrip stripL at h
    exact List.dropWhile_eq_nil_iff.mp h
  intro c hc
  rw [hw] at hc
  rcases List.mem_append.mp hc with h' | h'
  · exact hsr c h'
  · exact hws c h'

lemma splitComma_append_ws (s w : List Char)
    (hws : ∀ c ∈ w, isPyWs c = true) :
    splitComma (s ++ w) = appendLast w (splitComma s) := by
  induction s with
  | nil =>
    show splitComma w = appendLast w [[]]
    rw [splitComma_all_ws w hws]
    rfl
  | cons c r ih =>
    obtain ⟨u, us, hu⟩ : ∃ u us, splitComma r = u :: us := by
      cases h : splitComma r with
      | nil => exact absurd h (splitComma_ne_nil r)
      | cons u us => exact ⟨u, us, rfl⟩
    by_cases hc : c = ','
    · show splitComma (c :: (r ++ w)) = appendLast w (splitComma (c :: r))
      unfold splitComma
      rw [if_pos hc, if_pos hc, ih, hu]
      cases us <;> rfl
    · show splitComma (c :: (r ++ w)) = appendLast w (splitComma (c :: r))
      unfold splitComma
      rw [if_neg hc, if_neg hc, ih, hu]
      cases us <;> rfl

lemma map_pyStrip_appendLast (w u : List Char) (us : List (List Char))
    (hws : ∀ c ∈ w, isPyWs c = true) :
    (appendLast w (u :: us)).map pyStrip = (u :: us).map pyStrip := by
  induction us generalizing u with
  | nil =>
    show [pyStrip (u ++ w)] = [pyStrip u]
    rw [pyStrip_append_ws u w hws]
  | cons u2 us2 ih =>
    show pyStrip u :: (appendLast w (u2 :: us2)).map pyStrip = _
    rw [ih u2]
    rfl

lemma map_pyStrip_splitComma_stripR (s : List Char) :
    (splitComma (stripR s)).map pyStrip = (splitComma s).map pyStrip := by
  obtain ⟨w, hw, hws⟩ := stripR_decomp s
  conv_rhs => rw [hw]
  rw [splitComma_append_ws (stripR s) w hws]
  obtain ⟨u, us, hu⟩ : ∃ u us, splitComma (stripR s) = u :: us := by
    cases h : splitComma (stripR s) with
    | nil => exact absurd h (splitComma_ne_nil _)
    | cons u us => exact ⟨u, us, rfl⟩
  rw [hu, map_pyStrip_appendLast w u us hws]

lemma map_pyStrip_splitComma_ws_prepend (w s : List Char)
    (hws : ∀ c ∈ w, isPyWs c = true) :
    (splitComma (w ++ s)).map pyStrip = (splitComma s).map pyStrip := by
  induction w with
  | nil => rfl
  | cons c w ih =>
    have hw : ∀ c' ∈ w, isPyWs c' = true :=
      fun c' hc' => hws c' (List.mem_cons_of_mem _ hc')
    have hcw : isPyWs c = true := hws c (List.mem_cons_self _ _)
    have hc : c ≠ ',' := isPyWs_ne_comma c hcw
    obtain ⟨u, us, hu⟩ : ∃ u us, splitComma (w ++ s) = u :: us := by
      cases h : splitComma (w ++ s) with
      | nil => exact absurd h (splitComma_ne_nil _)
      | cons u us => exact ⟨u, us, rfl⟩
    have hsplit : splitComma (c :: (w ++ s)) = (c :: u) :: us := by
      simp only [splitComma]
      rw [if_neg hc, hu]
    show (splitComma (c :: (w ++ s))).map pyStrip = _
    rw [hsplit]
    show pyStrip (c :: u) :: us.map pyStrip = _
    rw [pyStrip_cons_ws c u hcw]
    have : pyStrip u :: us.map pyStrip = (splitComma (w ++ s)).map pyStrip := by
      rw [hu]
      rfl
    rw [this, ih hw]

lemma map_pyStrip_splitComma_stripL (s : List Char) :
    (splitComma (stripL s)).map pyStrip = (splitComma s).map pyStrip := by
  have hws : ∀ c ∈ s.takeWhile isPyWs, isPyWs c = true :=
    fun c hc => List.mem_takeWhile_imp hc
  conv_rhs => rw [← List.takeWhile_append_dropWhile isPyWs s]
  exact (map_pyStrip_splitComma_ws_prepend (s.takeWhile isPyWs)
    (s.dropWhile isPyWs) hws).symm

lemma map_pyStrip_splitComma_pyStrip (s : List Char) :
    (splitComma (pyStrip s)).map pyStrip = (splitComma s).map pyStrip :=
  calc (splitComma (pyStrip s)).map pyStrip
      = (splitComma (stripL (stripR s))).map pyStrip := rfl
    _ = (splitComma (stripR s)).map pyStrip :=
        map_pyStrip_splitComma_stripL (stripR s)
    _ = (splitComma s).map pyStrip := map_pyStrip_splitComma_stripR s

lemma pyLower_eq_nil_iff (s : List Char) : pyLower s = [] ↔ s = [] := by
  unfold pyLower
  simp

lemma filter_strip_map_lower (L : List (List Char)) :
    (L.filter (fun t => pyStrip t ≠ [])).map (fun t => pyLower (pyStrip t)) =
      (L.map (fun t => pyLower (pyStrip t))).filter (fun t => t ≠ []) := by
  induction L with
  | nil => rfl
  | cons t L ih =>
    by_cases h : pyStrip t = []
    · simp only [List.filter_cons, List.map_cons, h]
      simp only [pyLower, h, List.map_nil]
      simpa using ih
    · have hlow : pyLower (pyStrip t) ≠ [] :=
        fun he => h ((pyLower_eq_nil_iff _).mp he)
      simp only [List.filter_cons, List.map_cons]
      simp [h, hlow]
      simpa using ih

lemma specAndTokens_nil_of_strip_nil (q : List Char) (h : pyStrip q = []) :
    specAndTokens q = [] := by
  have hws := pyStrip_eq_nil_all_ws q h
  unfold specAndTokens
  rw [splitComma_all_ws q hws]
  show ([pyLower (pyStrip q)]).filter (fun t => t ≠ []) = []
  rw [h]
  rfl

/-- Claim C3: in tokens-AND mode (`mode = "and"`), `search` agrees with the
specification function: split the query on commas, trim and lowercase
each token, drop empty tokens; if no tokens remain return the entries
unchanged, otherwise return exactly the entries whose lowercased prompt
contains every token as a substring.  The result is always a sublist of
the input — original order, no mutation. -/
theorem search_tokens_and_c3 (q : List Char) (E : List ImageEntry) :
    search q "and".toList E = specSearchAnd q E ∧
    (specSearchAnd q E).Sublist E := by
  have hsub : (specSearchAnd q E).Sublist E := by
    unfold specSearchAnd
    by_cases h : specAndTokens q = []
    · simp only [h, if_pos]
      exact List.Sublist.refl E
    · simp only [h, if_neg]
      exact List.filter_sublist E
  refine ⟨?_, hsub⟩
  by_cases hq : pyStrip q = []
  · have htoks := specAndTokens_nil_of_strip_nil q hq
    simp only [search, specSearchAnd, hq, htoks]
    simp
  · have hmode : ¬ ("and".toList = "exact".toList) := by decide
    have hmapmap : ∀ L : List (List Char),
        L.map (fun t => pyLower (pyStrip t)) = (L.map pyStrip).map pyLower := by
      intro L
      rw [List.map_map]
      rfl
    have key : (splitComma (pyStrip q)).map (fun t => pyLower (pyStrip t)) =
        (splitComma q).map (fun t => pyLower (pyStrip t)) := by
      rw [hmapmap, hmapmap, map_pyStrip_splitComma_pyStrip q]
    have htoks :
        ((splitComma (pyStrip q)).filter (fun t => pyStrip t ≠ [])).map
          (fun t => pyLower (pyStrip t)) = specAndTokens q := by
      rw [filter_strip_map_lower]
      unfold specAndTokens
      rw [key]
    simp only [search, specSearchAnd, if_neg hq, if_neg hmode, htoks]

/-! ## Metadata extraction refines the spec (C4) -/

lemma dedupSeenAfter_cons (seen : List (List Char)) (v : List Char)
    (rest : List (List Char)) :
    dedupSeenAfter seen (v :: rest) =
      if v ∈ seen then dedupSeenAfter seen rest
      else dedupSeenAfter (v :: seen) rest := rfl

lemma dedupFirstAux_cons (seen : List (List Char)) (v : List Char)
    (rest : List (List Char)) :
    dedupFirstAux seen (v :: rest) =
      if v ∈ seen then dedupFirstAux seen rest
      else v :: dedupFirstAux (v :: seen) rest := rfl

lemma processVals_eq (seen acc : List (List Char)) (vs : List (List Char)) :
    processVals (seen, acc) vs =
      (dedupSeenAfter seen ((vs.map pyStrip).filter (fun v => v ≠ [])),
        acc ++ dedupFirstAux seen ((vs.map pyStrip).filter (fun v => v ≠ []))) := by
  induction vs generalizing seen acc with
  | nil => simp [processVals, dedupSeenAfter, dedupFirstAux]
  | cons v vs ih =>
    show processVals (appendValue seen acc v) vs = _
    unfold appendValue
    by_cases h : pyStrip v = []
    · have hcond : ¬ (pyStrip v ≠ [] ∧ pyStrip v ∉ seen) := fun hc => hc.1 h
      rw [if_neg hcond]
      simp only [List.map_cons, List.filter_cons, h]
      simpa using ih seen acc
    · by_cases hs : pyStrip v ∈ seen
      · have hcond : ¬ (pyStrip v ≠ [] ∧ pyStrip v ∉ seen) := fun hc => hc.2 hs
        rw [if_neg hcond]
        have hfc : ((v :: vs).map pyStrip).filter (fun v => v ≠ []) =
            pyStrip v :: ((vs.map pyStrip).filter (fun v => v ≠ [])) := by
          simp [h]
        rw [hfc, dedupSeenAfter_cons, dedupFirstAux_cons, if_pos hs, if_pos hs]
        exact ih seen acc
      · rw [if_pos ⟨h, hs⟩]
        have hfc : ((v :: vs).map pyStrip).filter (fun v => v ≠ []) =
            pyStrip v :: ((vs.map pyStrip).filter (fun v => v ≠ [])) := by
          simp [h]
        rw [hfc, dedupSeenAfter_cons, dedupFirstAux_cons, if_neg hs, if_neg hs]
        rw [ih (pyStrip v :: seen) (acc ++ [pyStrip v])]
        rw [List.append_assoc]
        rfl

lemma foldl_prioritized_eq (keys : List (List Char))
    (info : List (List Char × List Char))
    (st : List (List Char) × List (List Char)) :
    keys.foldl
      (fun (st : List (List Char) × List (List Char)) key =>
        match lookupAssoc key info with
        | some v => appendValue st.1 st.2 v
        | none => st) st =
      processVals st (keys.filterMap (fun k => lookupAssoc k info)) := by
  induction keys generalizing st with
  | nil => rfl
  | cons k keys ih =>
    cases h : lookupAssoc k info with
    | none =>
      show keys.foldl _ _ = processVals st ((k :: keys).filterMap _)
      rw [List.filterMap_cons]
      rw [h]
      simp only []
      rw [← ih st]
      show keys.foldl _ (match lookupAssoc k info with
        | some v => appendValue st.1 st.2 v
        | none => st) = _
      rw [h]
    | some v =>
      show keys.foldl _ _ = processVals st ((k :: keys).filterMap _)
      rw [List.filterMap_cons, h]
      simp only []
      show keys.foldl _ (match lookupAssoc k info with
        | some v => appendValue st.1 st.2 v
        | none => st) =
        processVals (appendValue st.1 st.2 v) (keys.filterMap _)
      rw [h]
      exact ih (appendValue st.1 st.2 v)

lemma foldl_remaining_eq (info : List (List Char × List Char))
    (st : List (List Char) × List (List Char)) :
    info.foldl
      (fun (st : List (List Char) × List (List Char)) kv =>
        if kv.1 ∈ prioritizedKeys then st else appendValue st.1 st.2 kv.2) st =
      processVals st
        ((info.filter (fun kv => kv.1 ∉ prioritizedKeys)).map (·.2)) := by
  induction info generalizing st with
  | nil => rfl
  | cons kv info ih =>
    by_cases h : kv.1 ∈ prioritizedKeys
    · show info.foldl _ (if kv.1 ∈ prioritizedKeys then st else _) = _
      rw [if_pos h, ih st]
      congr 1
      simp [List.filter_cons, h]
    · show info.foldl _ (if kv.1 ∈ prioritizedKeys then st else _) = _
      rw [if_neg h, ih (appendValue st.1 st.2 kv.2)]
      have : (((kv :: info).filter (fun kv => kv.1 ∉ prioritizedKeys)).map
          (·.2)) = kv.2 ::
          ((info.filter (fun kv => kv.1 ∉ prioritizedKeys)).map (·.2)) := by
        simp [List.filter_cons, h]
      rw [this]
      rfl

lemma dedupFirstAux_append (seen l₁ l₂ : List (List Char)) :
    dedupFirstAux seen (l₁ ++ l₂) =
      dedupFirstAux seen l₁ ++ dedupFirstAux (dedupSeenAfter seen l₁) l₂ := by
  induction l₁ generalizing seen with
  | nil => rfl
  | cons v l₁ ih =>
    show dedupFirstAux seen (v :: (l₁ ++ l₂)) = _
    by_cases h : v ∈ seen
    · rw [dedupFirstAux_cons, if_pos h, dedupFirstAux_cons, if_pos h,
        dedupSeenAfter_cons, if_pos h]
      exact ih seen
    · rw [dedupFirstAux_cons, if_neg h, dedupFirstAux_cons, if_neg h,
        dedupSeenAfter_cons, if_neg h]
      rw [ih (v :: seen)]
      rfl

/-- Claim C4: `extract_prompt_text` refines its specification: on a decode
failure it returns the empty string, and otherwise it returns exactly
the distinct non-empty trimmed metadata values — the prioritized keys'
values first, then the remaining keys' values in dictionary order —
deduplicated by exact text match (first occurrence kept) and joined
with a blank-line separator.  The embedded function is total: no
exception reaches the caller. -/
theorem extract_prompt_c4 (info? : Option (List (List Char × List Char))) :
    extract_prompt_text info? = specExtract info? ∧
    extract_prompt_text none = [] := by
  refine ⟨?_, rfl⟩
  cases info? with
  | none => rfl
  | some info =>
    simp only [extract_prompt_text, specExtract]
    rw [foldl_prioritized_eq, foldl_remaining_eq]
    rw [processVals_eq, processVals_eq]
    simp only [List.nil_append]
    rw [← dedupFirstAux_append]
    congr 1
    congr 1
    simp [specCandidates, List.map_append, List.filter_append]

/-! Sanity checks of the string model and the filter engine. -/

example : pyStrip "  a , b  ".toList = "a , b".toList := by decide

example : splitComma "a,,b".toList = ["a".toList, [], "b".toList] := by decide

example : splitComma "".toList = [[]] := by decide

example : containsSeq "red cat".toList "cat".toList = true := by decide

example : containsSeq "red cat".toList "".toList = true := by decide

example : containsSeq "red cat".toList "dog".toList = false := by decide

example :
    search "red,cat".toList "and".toList
        [ImageEntry.mk 0 "red cat".toList, ImageEntry.mk 1 "blue cat".toList,
          ImageEntry.mk 2 "red dog".toList] =
      [ImageEntry.mk 0 "red cat".toList] := by decide

example :
    search "cat".toList "exact".toList
        [ImageEntry.mk 0 "red cat".toList, ImageEntry.mk 1 "blue cat".toList,
          ImageEntry.mk 2 "red dog".toList] =
      [ImageEntry.mk 0 "red cat".toList, ImageEntry.mk 1 "blue cat".toList] := by
  decide

example :
    search "".toList "and".toList
        [ImageEntry.mk 0 "red cat".toList, ImageEntry.mk 1 "blue cat".toList] =
      [ImageEntry.mk 0 "red cat".toList, ImageEntry.mk 1 "blue cat".toList] := by
  decide

example :
    search " ,,  , ".toList "and".toList
        [ImageEntry.mk 0 "red cat".toList, ImageEntry.mk 1 "blue cat".toList] =
      [ImageEntry.mk 0 "red cat".toList, ImageEntry.mk 1 "blue cat".toList] := by
  decide

example :
    extract_prompt_text
        (some [("Software".toList, "NovelAI".toList),
          ("comment".toList, " world ".toList),
          ("prompt".toList, "  hello ".toList),
          ("junk".toList, "hello".toList)]) =
      "hello\n\nworld\n\nNovelAI".toList := by decide

example : extract_prompt_text none = [] := rfl

example :
    stepScan (AppState.mk 2 [] .ready 0 [] [] "exact".toList [])
        (.workerComplete 1 [ImageEntry.mk 0 []]) =
      AppState.mk 2 [] .ready 0 [] [] "exact".toList [] := by decide

example :
    keysOf (runGets (fun _ => none) 2 []
        [(0, 160), (1, 160), (0, 160), (2, 160)]) = [(0, 160), (2, 160)] := by
  decide



